import Mathlib

/-!
Verification development for the goonstation-asm assembler
(`src/src/lib.rs`): a lexer for MC14500 assembly mnemonics and a
single-pass validating encoder producing a hex opcode string.

The Rust source is shallowly embedded below:
* `Token` mirrors the `Token` enum (logos-derived lexer variants).
* `lexList` models the logos lexer: maximal-munch matching of the
  mnemonic literals, single-hex-digit operands, semicolon comments
  (skipped), whitespace runs (skipped), and an `Error` token for each
  unrecognized character.
* `Program.into_opcodes` mirrors `Program::into_opcodes`: a length
  guard against `MAX_PROGRAM_LENGTH`, then a single forward pass with
  an `expecting_operand` flag (`encodeLoop`).
* `get_token_representation` and `does_token_require_operand` mirror
  the functions of the same names.
-/

set_option maxRecDepth 20000

namespace GoonAsm

/-- Mirrors the Rust `Token` enum: 15 mnemonic variants, a data-carrying
`Operand` (from `u8::from_str_radix` on a single hex digit, modelled as a
`Nat`), a `Comment` marker and an `Error` marker. -/
inductive Token where
  | NoOp
  | Load
  | LoadComplement
  | And
  | AndComplement
  | Or
  | OrComplement
  | ExclusiveNor
  | Store
  | StoreComplement
  | InputEnable
  | OutputEnable
  | Jump
  | Return
  | SkipIfZero
  | Operand (value : Nat)
  | Comment
  | Error
deriving DecidableEq

/-- Mirrors the Rust `AssemblerError` enum. -/
inductive AssemblerError where
  | ExpectedOperand
  | ExceededMaxLength
deriving DecidableEq

/-- Mirrors `const MAX_PROGRAM_LENGTH: usize = 128`. -/
def MAX_PROGRAM_LENGTH : Nat := 128

/-- Tests whether the literal is a prefix of the input character list. -/
def litMatches : List Char → List Char → Bool
  | [], _ => true
  | _ :: _, [] => false
  | a :: as, b :: bs => a == b && litMatches as bs

/-- The `#[token("...")]` literals of the lexer, with their tokens. -/
def mnemonicTable : List (List Char × Token) :=
  [(['N', 'O', 'P'], Token.NoOp),
   (['L', 'D'], Token.Load),
   (['L', 'D', 'C'], Token.LoadComplement),
   (['A', 'N', 'D'], Token.And),
   (['A', 'N', 'D', 'C'], Token.AndComplement),
   (['O', 'R'], Token.Or),
   (['O', 'R', 'C'], Token.OrComplement),
   (['X', 'N', 'O', 'R'], Token.ExclusiveNor),
   (['S', 'T', 'O'], Token.Store),
   (['S', 'T', 'O', 'C'], Token.StoreComplement),
   (['I', 'E', 'N'], Token.InputEnable),
   (['O', 'E', 'N'], Token.OutputEnable),
   (['J', 'M', 'P'], Token.Jump),
   (['R', 'T', 'N'], Token.Return),
   (['S', 'K', 'Z'], Token.SkipIfZero)]

/-- One fold step of longest-match selection over the mnemonic table:
keep the candidate whose literal matches the input and is strictly
longer than the best so far. -/
def betterEntry (input : List Char) (acc : Option (Token × Nat))
    (e : List Char × Token) : Option (Token × Nat) :=
  if litMatches e.1 input then
    match acc with
    | none => some (e.2, e.1.length)
    | some (_, n) => if n < e.1.length then some (e.2, e.1.length) else acc
  else acc

/-- Longest mnemonic literal matching at the head of the input, with the
number of characters it consumes.  Models the maximal-munch choice the
logos-generated lexer makes among the `#[token]` literals. -/
def longestMnemonic (input : List Char) : Option (Token × Nat) :=
  mnemonicTable.foldl (betterEntry input) none

/-- Whitespace characters of the skip regex `[ \t\n\f]+`. -/
def isWs (c : Char) : Bool :=
  c == ' ' || c == '\t' || c == '\n' || c == '\x0c'

/-- Characters of the operand regex `[a-fA-F0-9]`. -/
def isHexChar (c : Char) : Bool :=
  decide ((48 ≤ c.toNat ∧ c.toNat ≤ 57) ∨ (97 ≤ c.toNat ∧ c.toNat ≤ 102) ∨
    (65 ≤ c.toNat ∧ c.toNat ≤ 70))

/-- Value of a hex digit character; models `u8::from_str_radix(slice, 16)`
on the single characters the operand regex accepts. -/
def hexVal (c : Char) : Nat :=
  if 97 ≤ c.toNat then c.toNat - 87
  else if 65 ≤ c.toNat then c.toNat - 55
  else c.toNat - 48

/-- Fuel-indexed lexer loop.  At each position: prefer the longest
matching mnemonic literal; otherwise a semicolon starts a comment
(skipped up to, not including, the next newline, per regex `;.*`);
whitespace is skipped; a hex digit becomes an `Operand`; any other
character yields an `Error` token (logos `#[error]` variant), which is
kept in the stream. -/
def lexGo : Nat → List Char → List Token
  | 0, _ => []
  | _ + 1, [] => []
  | fuel + 1, c :: rest =>
    match longestMnemonic (c :: rest) with
    | some (t, n) => t :: lexGo fuel (List.drop (n - 1) rest)
    | none =>
      if c = ';' then lexGo fuel (rest.dropWhile (fun x => !(x == '\n')))
      else if isWs c then lexGo fuel rest
      else if isHexChar c then Token.Operand (hexVal c) :: lexGo fuel rest
      else Token.Error :: lexGo fuel rest

/-- The lexer: one character of fuel per input character always
suffices because every step consumes at least one character. -/
def lexList (cs : List Char) : List Token := lexGo cs.length cs

/-- Mirrors `Program { tokens: Vec<Token> }`. -/
structure Program where
  tokens : List Token

/-- Mirrors `Program::from_assembly`: collect the lexer's tokens. -/
def Program.from_assembly (assembly : String) : Program :=
  ⟨lexList assembly.data⟩

/-- Mirrors `does_token_require_operand`. -/
def does_token_require_operand (t : Token) : Bool :=
  match t with
  | .Load | .LoadComplement | .And | .AndComplement | .Or | .OrComplement
  | .ExclusiveNor | .Store | .StoreComplement | .InputEnable
  | .OutputEnable | .Jump => true
  | _ => false

/-- Uppercase hex digit character for a value below 16 (48 is the code
of the zero digit, 55 + 10 the code of the letter A). -/
def hexDigit (n : Nat) : Char :=
  if n < 10 then Char.ofNat (48 + n) else Char.ofNat (55 + n)

/-- Fuel-indexed uppercase hexadecimal formatting of a natural number,
most significant digit first; models Rust `format!` with the `X`
specifier. -/
def toHexAux : Nat → Nat → List Char
  | 0, _ => []
  | fuel + 1, n =>
    if n < 16 then [hexDigit n]
    else toHexAux fuel (n / 16) ++ [hexDigit (n % 16)]

/-- Uppercase hexadecimal digit string of a natural number. -/
def toHexUpper (n : Nat) : List Char := toHexAux (n + 1) n

/-- Mirrors `get_token_representation`.  For `Operand`, the Rust code is
`format!` in upper hex followed by `.chars().next().unwrap()`; the
`head?` models `.chars().next()`, and the possibility of a panic on
`unwrap` corresponds to a `none` result (shown impossible below). -/
def get_token_representation : Token → Option Char
  | .NoOp => some '0'
  | .Load => some '1'
  | .LoadComplement => some '2'
  | .And => some '3'
  | .AndComplement => some '4'
  | .Or => some '5'
  | .OrComplement => some '6'
  | .ExclusiveNor => some '7'
  | .Store => some '8'
  | .StoreComplement => some '9'
  | .InputEnable => some 'A'
  | .OutputEnable => some 'B'
  | .Jump => some 'C'
  | .Return => some 'D'
  | .SkipIfZero => some 'E'
  | .Operand v => (toHexUpper v).head?
  | .Comment => none
  | .Error => none

/-- Tests whether a token is an `Operand`, as the `match` inside the
encoder loop does. -/
def isOperand : Token → Bool
  | .Operand _ => true
  | _ => false

/-- The `for` loop of `Program::into_opcodes`: walk the tokens with the
`expecting_operand` flag and the accumulated output characters. -/
def encodeLoop : List Token → Bool → List Char →
    Except AssemblerError (List Char)
  | [], expecting, out =>
    if expecting then .error .ExpectedOperand else .ok out
  | t :: ts, expecting, out =>
    if expecting && !(isOperand t) then .error .ExpectedOperand
    else
      encodeLoop ts (does_token_require_operand t)
        (out ++ (get_token_representation t).toList)

/-- Mirrors `Program::into_opcodes`: reject token counts above
`MAX_PROGRAM_LENGTH` first, then run the single validating pass. -/
def Program.into_opcodes (p : Program) : Except AssemblerError String :=
  if p.tokens.length > MAX_PROGRAM_LENGTH then .error .ExceededMaxLength
  else (encodeLoop p.tokens false []).map String.mk

/-- Tests whether a token is one of the 15 zero-argument mnemonic
variants. -/
def isMnemonic : Token → Bool
  | .Operand _ | .Comment | .Error => false
  | _ => true

lemma betterEntry_some_inv (P : Token → Nat → Prop) (input : List Char)
    (e : List Char × Token) (acc : Option (Token × Nat))
    (he : P e.2 e.1.length) (hacc : ∀ t n, acc = some (t, n) → P t n) :
    ∀ t n, betterEntry input acc e = some (t, n) → P t n := by
  intro t n h
  unfold betterEntry at h
  split at h
  · cases acc with
    | none =>
      simp only at h
      cases h
      exact he
    | some p =>
      simp only at h
      split at h
      · cases h
        exact he
      · exact hacc t n h
  · exact hacc t n h

lemma foldl_betterEntry_inv (P : Token → Nat → Prop) (input : List Char) :
    ∀ (L : List (List Char × Token)) (acc : Option (Token × Nat)),
      (∀ e ∈ L, P e.2 e.1.length) →
      (∀ t n, acc = some (t, n) → P t n) →
      ∀ t n, L.foldl (betterEntry input) acc = some (t, n) → P t n := by
  intro L
  induction L with
  | nil => intro acc _ hacc t n h; exact hacc t n h
  | cons e L ih =>
    intro acc hL hacc t n h
    refine ih (betterEntry input acc e) (fun x hx => hL x (List.mem_cons_of_mem e hx)) ?_ t n h
    exact betterEntry_some_inv P input e acc (hL e (List.mem_cons_self e L)) hacc

lemma foldl_betterEntry_none (input : List Char) :
    ∀ L : List (List Char × Token),
      (∀ e ∈ L, litMatches e.1 input = false) →
      L.foldl (betterEntry input) none = none := by
  intro L
  induction L with
  | nil => intro _; rfl
  | cons e L ih =>
    intro hL
    have hstep : betterEntry input none e = none := by
      unfold betterEntry
      rw [hL e (List.mem_cons_self e L)]
      simp
    simpa [List.foldl_cons, hstep] using
      ih (fun x hx => hL x (List.mem_cons_of_mem e hx))

/-- Every successful longest-match result is a mnemonic token consuming
at least two characters. -/
lemma longestMnemonic_some (input : List Char) (t : Token) (n : Nat)
    (h : longestMnemonic input = some (t, n)) :
    isMnemonic t = true ∧ 2 ≤ n := by
  refine foldl_betterEntry_inv (fun t n => isMnemonic t = true ∧ 2 ≤ n)
    input mnemonicTable none ?_ ?_ t n h
  · decide
  · intro _ _ h; cases h

lemma litMatches_ne_head (a c : Char) (as xs : List Char) (h : ¬ a = c) :
    litMatches (a :: as) (c :: xs) = false := by
  have hb : (a == c) = false := beq_eq_false_iff_ne.mpr h
  show (a == c && litMatches as xs) = false
  rw [hb, Bool.false_and]

lemma litMatches_two_singleton (a b c : Char) (r : List Char) :
    litMatches (a :: b :: r) [c] = false := by
  show (a == c && litMatches (b :: r) []) = false
  rw [show litMatches (b :: r) [] = false from rfl, Bool.and_false]

/-- No mnemonic literal starts with a semicolon, so longest-match fails
on input beginning with one. -/
lemma longestMnemonic_semicolon (xs : List Char) :
    longestMnemonic (';' :: xs) = none := by
  refine foldl_betterEntry_none (';' :: xs) mnemonicTable ?_
  intro e he
  fin_cases he <;> exact litMatches_ne_head _ _ _ _ (by decide)

/-- Every mnemonic literal has at least two characters, so longest-match
fails on a single-character input. -/
lemma longestMnemonic_singleton (c : Char) :
    longestMnemonic [c] = none := by
  refine foldl_betterEntry_none [c] mnemonicTable ?_
  intro e he
  fin_cases he <;> exact litMatches_two_singleton _ _ _ _

lemma lexGo_nil : ∀ f, lexGo f [] = []
  | 0 => rfl
  | _ + 1 => rfl

lemma length_dropWhile_le (p : Char → Bool) :
    ∀ l : List Char, (l.dropWhile p).length ≤ l.length := by
  intro l
  induction l with
  | nil => exact Nat.le_refl 0
  | cons a l ih =>
    rw [List.dropWhile_cons]
    split
    · exact Nat.le_succ_of_le ih
    · exact Nat.le_refl _

/-- The lexer loop ignores fuel beyond the input length: any sufficient
fuel gives the same token stream. -/
lemma lexGo_fuel : ∀ (f₁ : Nat) (f₂ : Nat) (cs : List Char),
    cs.length ≤ f₁ → cs.length ≤ f₂ → lexGo f₁ cs = lexGo f₂ cs := by
  intro f₁
  induction f₁ with
  | zero =>
    intro f₂ cs h₁ _
    have : cs = [] := List.eq_nil_of_length_eq_zero (Nat.le_zero.mp h₁)
    subst this
    rw [lexGo_nil, lexGo_nil]
  | succ f₁ ih =>
    intro f₂ cs h₁ h₂
    cases cs with
    | nil => rw [lexGo_nil, lexGo_nil]
    | cons c rest =>
      cases f₂ with
      | zero => exact absurd h₂ (by simp)
      | succ f₂ =>
        have hr₁ : rest.length ≤ f₁ := Nat.le_of_succ_le_succ h₁
        have hr₂ : rest.length ≤ f₂ := Nat.le_of_succ_le_succ h₂
        cases hm : longestMnemonic (c :: rest) with
        | some p =>
          obtain ⟨t, n⟩ := p
          have hd : (List.drop (n - 1) rest).length ≤ rest.length := by
            rw [List.length_drop]; exact Nat.sub_le _ _
          simp only [lexGo, hm]
          rw [ih f₂ _ (Nat.le_trans hd hr₁) (Nat.le_trans hd hr₂)]
        | none =>
          have hdw : (rest.dropWhile (fun x => !(x == '\n'))).length ≤
              rest.length := length_dropWhile_le _ rest
          simp only [lexGo, hm]
          split
          · exact ih f₂ _ (Nat.le_trans hdw hr₁) (Nat.le_trans hdw hr₂)
          · split
            · exact ih f₂ _ hr₁ hr₂
            · split
              · rw [ih f₂ _ hr₁ hr₂]
              · rw [ih f₂ _ hr₁ hr₂]

/-- Running the lexer loop with any sufficient fuel computes `lexList`. -/
lemma lexGo_eq_lexList (f : Nat) (cs : List Char) (h : cs.length ≤ f) :
    lexGo f cs = lexList cs :=
  lexGo_fuel f cs.length cs h (Nat.le_refl _)

lemma dropWhile_append_newline (c : List Char) (rest : List Char)
    (h : '\n' ∉ c) :
    (c ++ '\n' :: rest).dropWhile (fun x => !(x == '\n')) = '\n' :: rest := by
  induction c with
  | nil => simp [List.dropWhile_cons]
  | cons a c ih =>
    have ha : ¬ a = '\n' := fun hc => h (hc ▸ List.mem_cons_self a c)
    have hc : '\n' ∉ c := fun hm => h (List.mem_cons_of_mem a hm)
    rw [List.cons_append, List.dropWhile_cons]
    simp only [beq_eq_false_iff_ne, ne_eq, Bool.not_eq_eq_eq_not, Bool.not_false]
    rw [if_pos (by simpa using ha)]
    exact ih hc

/-- A semicolon comment at the head of the remaining input is skipped in
full: it adds no token, and lexing resumes at the newline that
terminates it. -/
lemma lexList_comment_skip (c rest : List Char) (h : '\n' ∉ c) :
    lexList (';' :: (c ++ '\n' :: rest)) = lexList ('\n' :: rest) := by
  have hlen : (';' :: (c ++ '\n' :: rest)).length =
      (c ++ '\n' :: rest).length + 1 := rfl
  show lexGo (';' :: (c ++ '\n' :: rest)).length (';' :: (c ++ '\n' :: rest)) =
    lexList ('\n' :: rest)
  rw [hlen]
  simp only [lexGo, longestMnemonic_semicolon]
  rw [if_pos trivial, dropWhile_append_newline c rest h]
  refine lexGo_eq_lexList _ _ ?_
  simp [List.length_append]

lemma hexVal_lt_of_isHexChar (c : Char) (h : isHexChar c = true) :
    hexVal c < 16 := by
  have h' := of_decide_eq_true h
  unfold hexVal
  split
  · omega
  · split <;> omega

/-- Shape invariant of the lexer output: every produced token is a
mnemonic, an `Operand` with value below 16, or `Error`. -/
lemma lexGo_token_shape : ∀ (f : Nat) (cs : List Char) (t : Token),
    t ∈ lexGo f cs →
    isMnemonic t = true ∨ (∃ v, t = Token.Operand v ∧ v < 16) ∨
      t = Token.Error := by
  intro f
  induction f with
  | zero => intro cs t h; simp [lexGo] at h
  | succ f ih =>
    intro cs t h
    cases cs with
    | nil => simp [lexGo] at h
    | cons c rest =>
      cases hm : longestMnemonic (c :: rest) with
      | some p =>
        obtain ⟨t₀, n⟩ := p
        simp only [lexGo, hm] at h
        rcases List.mem_cons.mp h with h1 | h2
        · exact Or.inl (h1 ▸ (longestMnemonic_some _ _ _ hm).1)
        · exact ih _ _ h2
      | none =>
        simp only [lexGo, hm] at h
        by_cases hc : c = ';'
        · rw [if_pos hc] at h
          exact ih _ _ h
        · rw [if_neg hc] at h
          by_cases hw : isWs c = true
          · rw [if_pos hw] at h
            exact ih _ _ h
          · rw [if_neg hw] at h
            by_cases hx : isHexChar c = true
            · rw [if_pos hx] at h
              rcases List.mem_cons.mp h with h1 | h2
              · exact Or.inr (Or.inl
                  ⟨hexVal c, h1, hexVal_lt_of_isHexChar c hx⟩)
              · exact ih _ _ h2
            · rw [if_neg hx] at h
              rcases List.mem_cons.mp h with h1 | h2
              · exact Or.inr (Or.inr h1)
              · exact ih _ _ h2

lemma lexList_token_shape (cs : List Char) (t : Token) (h : t ∈ lexList cs) :
    isMnemonic t = true ∨ (∃ v, t = Token.Operand v ∧ v < 16) ∨
      t = Token.Error :=
  lexGo_token_shape _ _ _ h

/-- Comments never appear in the lexer output. -/
lemma lexList_no_comment (cs : List Char) : Token.Comment ∉ lexList cs := by
  intro h
  rcases lexList_token_shape cs Token.Comment h with h1 | ⟨v, h2, _⟩ | h3
  · cases h1
  · cases h2
  · cases h3

/-- Operand values produced by the lexer are four-bit. -/
lemma lexList_operand_lt (cs : List Char) (v : Nat)
    (h : Token.Operand v ∈ lexList cs) : v < 16 := by
  rcases lexList_token_shape cs _ h with h1 | ⟨v', h2, hlt⟩ | h3
  · cases h1
  · cases h2; exact hlt
  · cases h3

/-- A single character that is not a semicolon, whitespace, or a hex
digit lexes to exactly one `Error` token, which is kept in the stream
(no mnemonic literal fits in one character). -/
lemma lexList_single_error (c : Char) (hs : ¬ c = ';') (hw : isWs c = false)
    (hx : isHexChar c = false) : lexList [c] = [Token.Error] := by
  show lexGo 1 [c] = [Token.Error]
  simp only [lexGo, longestMnemonic_singleton]
  rw [if_neg hs, if_neg (by simp [hw]), if_neg (by simp [hx])]

/-- Written from the spec and claim wording: the operand-required set
(Load, LoadComplement, And, AndComplement, Or, OrComplement,
ExclusiveNor, Store, StoreComplement, InputEnable, OutputEnable, Jump);
used to compare against the source's `does_token_require_operand`. -/
def specRequiresOperand : Token → Bool
  | .Load => true
  | .LoadComplement => true
  | .And => true
  | .AndComplement => true
  | .Or => true
  | .OrComplement => true
  | .ExclusiveNor => true
  | .Store => true
  | .StoreComplement => true
  | .InputEnable => true
  | .OutputEnable => true
  | .Jump => true
  | _ => false

lemma req_eq_spec (t : Token) :
    does_token_require_operand t = specRequiresOperand t := by
  cases t <;> rfl

/-- True when the list is empty or its first token is not an Operand:
the situation in which a pending operand requirement is violated. -/
def headNotOperand : List Token → Bool
  | [] => true
  | t :: _ => !(isOperand t)

/-- Recursive form of the operand-violation condition: some
operand-requiring token is not immediately followed by an Operand
(including at end of input). -/
def specViolB : List Token → Bool
  | [] => false
  | t :: ts => (specRequiresOperand t && headNotOperand ts) || specViolB ts

/-- Written from the claim wording: some token of the operand-required
set is not immediately followed in the sequence by an Operand token,
including the case where it is the last token. -/
def specOperandViolation (ts : List Token) : Prop :=
  ∃ i t, ts[i]? = some t ∧ specRequiresOperand t = true ∧
    ∀ t', ts[i + 1]? = some t' → isOperand t' = false

/-- Error condition of the encoder loop as a boolean recursion over the
remaining tokens, starting from an arbitrary flag state. -/
def errCond : Bool → List Token → Bool
  | e, [] => e
  | e, t :: ts =>
    (e && !(isOperand t)) || errCond (does_token_require_operand t) ts

lemma errCond_eq (ts : List Token) : ∀ e : Bool,
    errCond e ts = ((e && headNotOperand ts) || specViolB ts) := by
  induction ts with
  | nil => intro e; simp [errCond, headNotOperand, specViolB]
  | cons t ts ih =>
    intro e
    simp only [errCond, specViolB, headNotOperand, ih, req_eq_spec,
      Bool.or_assoc]

lemma specViolB_iff (ts : List Token) :
    specViolB ts = true ↔ specOperandViolation ts := by
  induction ts with
  | nil =>
    constructor
    · intro h; cases h
    · rintro ⟨i, t, h, -, -⟩; simp at h
  | cons t ts ih =>
    constructor
    · intro h
      simp only [specViolB, Bool.or_eq_true, Bool.and_eq_true] at h
      rcases h with ⟨hreq, hhead⟩ | h2
      · refine ⟨0, t, by simp, hreq, ?_⟩
        intro t' ht'
        have hts : ts[0]? = some t' := by simpa using ht'
        cases ts with
        | nil => simp at hts
        | cons u us =>
          simp only [List.getElem?_cons_zero, Option.some.injEq] at hts
          subst hts
          simpa [headNotOperand] using hhead
      · obtain ⟨i, t₀, h₀, hreq, hnext⟩ := ih.mp h2
        refine ⟨i + 1, t₀, by simpa using h₀, hreq, ?_⟩
        intro t' ht'
        exact hnext t' (by simpa using ht')
    · rintro ⟨i, t₀, h₀, hreq, hnext⟩
      simp only [specViolB, Bool.or_eq_true, Bool.and_eq_true]
      cases i with
      | zero =>
        simp only [List.getElem?_cons_zero, Option.some.injEq] at h₀
        subst h₀
        refine Or.inl ⟨hreq, ?_⟩
        cases ts with
        | nil => rfl
        | cons u us =>
          have hu := hnext u (by simp)
          simp [headNotOperand, hu]
      | succ i =>
        refine Or.inr (ih.mpr ⟨i, t₀, by simpa using h₀, hreq, ?_⟩)
        intro t' ht'
        exact hnext t' (by simpa using ht')

lemma encodeLoop_err_iff (ts : List Token) : ∀ (e : Bool) (out : List Char),
    encodeLoop ts e out = .error .ExpectedOperand ↔ errCond e ts = true := by
  induction ts with
  | nil =>
    intro e out
    cases e <;> simp [encodeLoop, errCond]
  | cons t ts ih =>
    intro e out
    simp only [encodeLoop, errCond]
    by_cases h : (e && !(isOperand t)) = true
    · rw [if_pos h, h]
      simp
    · rw [if_neg h]
      rw [Bool.not_eq_true] at h
      rw [h]
      simp only [Bool.false_or]
      exact ih _ _

lemma encodeLoop_ok (ts : List Token) : ∀ (e : Bool) (out r : List Char),
    encodeLoop ts e out = .ok r →
    r = out ++ ts.filterMap get_token_representation := by
  induction ts with
  | nil =>
    intro e out r h
    cases e with
    | false =>
      simp only [encodeLoop, if_neg (by simp : ¬ (false : Bool) = true),
        Except.ok.injEq] at h
      simp [h]
    | true => simp [encodeLoop] at h
  | cons t ts ih =>
    intro e out r h
    simp only [encodeLoop] at h
    split at h
    · simp at h
    · have hr := ih _ _ _ h
      rw [hr, List.append_assoc]
      congr 1
      cases hg : get_token_representation t with
      | none => simp [hg, List.filterMap_cons_none hg]
      | some c => simp [hg, List.filterMap_cons_some hg]

lemma encodeLoop_ne_maxlen (ts : List Token) : ∀ (e : Bool) (out : List Char),
    encodeLoop ts e out ≠ .error .ExceededMaxLength := by
  induction ts with
  | nil =>
    intro e out h
    cases e <;> simp [encodeLoop] at h
  | cons t ts ih =>
    intro e out h
    simp only [encodeLoop] at h
    split at h
    · simp at h
    · exact ih _ _ h

lemma except_map_eq_error_iff (f : List Char → String)
    (x : Except AssemblerError (List Char)) (e : AssemblerError) :
    x.map f = .error e ↔ x = .error e := by
  cases x <;> simp [Except.map]

lemma except_map_eq_ok_iff (f : List Char → String)
    (x : Except AssemblerError (List Char)) (s : String) :
    x.map f = .ok s ↔ ∃ r, x = .ok r ∧ s = f r := by
  cases x <;> simp [Except.map, eq_comm]

lemma toHexUpper_lt (v : Nat) (h : v < 16) : toHexUpper v = [hexDigit v] := by
  unfold toHexUpper
  rw [toHexAux, if_pos h]

/-- The hex formatter always begins with a digit character. -/
lemma toHexAux_shape : ∀ f n : Nat, 1 ≤ f →
    ∃ k xs, k < 16 ∧ toHexAux f n = hexDigit k :: xs := by
  intro f
  induction f with
  | zero => intro n h; omega
  | succ f ih =>
    intro n _
    by_cases h : n < 16
    · exact ⟨n, [], h, by rw [toHexAux, if_pos h]⟩
    · cases f with
      | zero =>
        refine ⟨n % 16, [], Nat.mod_lt _ (by norm_num), ?_⟩
        rw [toHexAux, if_neg h]
        rfl
      | succ f' =>
        obtain ⟨k, xs, hk, hh⟩ := ih (n / 16) (Nat.succ_le_succ (Nat.zero_le _))
        refine ⟨k, xs ++ [hexDigit (n % 16)], hk, ?_⟩
        rw [toHexAux, if_neg h, hh, List.cons_append]

lemma repr_operand (v : Nat) (h : v < 16) :
    get_token_representation (Token.Operand v) = some (hexDigit v) := by
  show (toHexUpper v).head? = some (hexDigit v)
  rw [toHexUpper_lt v h]
  rfl

lemma repr_operand_isSome (v : Nat) :
    (get_token_representation (Token.Operand v)).isSome = true := by
  obtain ⟨k, xs, -, hh⟩ := toHexAux_shape (v + 1) v (Nat.succ_le_succ (Nat.zero_le _))
  show (toHexUpper v).head?.isSome = true
  unfold toHexUpper
  rw [hh]
  rfl

/-- Uppercase hexadecimal digit characters (codes of the ten digits and
of the letters A through F). -/
def isUpperHexDigit (c : Char) : Bool :=
  decide ((48 ≤ c.toNat ∧ c.toNat ≤ 57) ∨ (65 ≤ c.toNat ∧ c.toNat ≤ 70))

lemma hexDigit_isUpperHex : ∀ k, k < 16 → isUpperHexDigit (hexDigit k) = true := by
  decide

/-- Every character the representation function can emit is an
uppercase hexadecimal digit. -/
lemma repr_char_hex (t : Token) (c : Char)
    (h : get_token_representation t = some c) : isUpperHexDigit c = true := by
  cases t with
  | Operand v =>
    obtain ⟨k, xs, hk, hh⟩ :=
      toHexAux_shape (v + 1) v (Nat.succ_le_succ (Nat.zero_le _))
    have : (toHexUpper v).head? = some c := h
    rw [toHexUpper, hh] at this
    cases this
    exact hexDigit_isUpperHex k hk
  | Comment => cases h
  | Error => cases h
  | NoOp => cases h; decide
  | Load => cases h; decide
  | LoadComplement => cases h; decide
  | And => cases h; decide
  | AndComplement => cases h; decide
  | Or => cases h; decide
  | OrComplement => cases h; decide
  | ExclusiveNor => cases h; decide
  | Store => cases h; decide
  | StoreComplement => cases h; decide
  | InputEnable => cases h; decide
  | OutputEnable => cases h; decide
  | Jump => cases h; decide
  | Return => cases h; decide
  | SkipIfZero => cases h; decide

/-- Tokens that contribute one character to the output: exactly the
mnemonics and operands. -/
def isMnemonicOrOperand (t : Token) : Bool := isMnemonic t || isOperand t

lemma repr_isSome_iff (t : Token) :
    (get_token_representation t).isSome = isMnemonicOrOperand t := by
  cases t with
  | Operand v =>
    rw [repr_operand_isSome v]
    rfl
  | _ => rfl

lemma length_repr_filterMap (ts : List Token) :
    (ts.filterMap get_token_representation).length =
      (ts.filter isMnemonicOrOperand).length := by
  induction ts with
  | nil => rfl
  | cons t ts ih =>
    have h := repr_isSome_iff t
    cases hg : get_token_representation t with
    | none =>
      rw [hg] at h
      rw [List.filterMap_cons_none hg, List.filter_cons,
        if_neg (by rw [← h]; simp)]
      exact ih
    | some c =>
      rw [hg] at h
      rw [List.filterMap_cons_some hg, List.filter_cons,
        if_pos (by rw [← h]; rfl)]
      simpa using ih

/-- Written from the spec's fixed table: the single uppercase hex
character of each mnemonic, and the hex digit of an operand value,
read off the digit string 0123456789ABCDEF. -/
def specHexDigitChar (v : Nat) : Char :=
  "0123456789ABCDEF".data.getD v '?'

/-- Written from the spec's fixed mnemonic-to-hex table (NoOp=0 ...
SkipIfZero=E, Operand v emits the hex digit of v); compared below with
the source's `get_token_representation`. -/
def specTokenChar : Token → Option Char
  | .NoOp => some '0'
  | .Load => some '1'
  | .LoadComplement => some '2'
  | .And => some '3'
  | .AndComplement => some '4'
  | .Or => some '5'
  | .OrComplement => some '6'
  | .ExclusiveNor => some '7'
  | .Store => some '8'
  | .StoreComplement => some '9'
  | .InputEnable => some 'A'
  | .OutputEnable => some 'B'
  | .Jump => some 'C'
  | .Return => some 'D'
  | .SkipIfZero => some 'E'
  | .Operand v => some (specHexDigitChar v)
  | .Comment => none
  | .Error => none

lemma hexDigit_eq_spec : ∀ v, v < 16 → hexDigit v = specHexDigitChar v := by
  decide

lemma repr_eq_specTokenChar (t : Token)
    (h : ∀ v, t = Token.Operand v → v < 16) :
    get_token_representation t = specTokenChar t := by
  cases t with
  | Operand v =>
    rw [repr_operand v (h v rfl)]
    show _ = some (specHexDigitChar v)
    rw [hexDigit_eq_spec v (h v rfl)]
  | _ => rfl

lemma into_opcodes_eq (ts : List Token)
    (h : ¬ ts.length > MAX_PROGRAM_LENGTH) :
    (Program.mk ts).into_opcodes = (encodeLoop ts false []).map String.mk := by
  unfold Program.into_opcodes
  rw [if_neg h]

lemma into_opcodes_ok_data (ts : List Token) (s : String)
    (h : (Program.mk ts).into_opcodes = .ok s) :
    s.data = ts.filterMap get_token_representation ∧
      ¬ ts.length > MAX_PROGRAM_LENGTH := by
  by_cases hlen : ts.length > MAX_PROGRAM_LENGTH
  · unfold Program.into_opcodes at h
    rw [if_pos hlen] at h
    simp at h
  · rw [into_opcodes_eq ts hlen, except_map_eq_ok_iff] at h
    obtain ⟨r, hr, hs⟩ := h
    have hre := encodeLoop_ok ts false [] r hr
    rw [List.nil_append] at hre
    refine ⟨?_, hlen⟩
    rw [hs]
    exact hre

/-- C1: for a token sequence of at most 128 tokens, into_opcodes fails
with ExpectedOperand exactly when some token of the operand-required
set is not immediately followed in the sequence by an Operand token,
including the case where it is the last token. -/
theorem C1_expected_operand_iff (ts : List Token)
    (h : ts.length ≤ MAX_PROGRAM_LENGTH) :
    (Program.mk ts).into_opcodes = .error .ExpectedOperand ↔
      specOperandViolation ts := by
  rw [into_opcodes_eq ts (Nat.not_lt.mpr h), except_map_eq_error_iff,
    encodeLoop_err_iff, errCond_eq]
  simp only [Bool.false_and, Bool.false_or]
  exact specViolB_iff ts

/-- Witness for C1 at the one-token program consisting of Store. -/
theorem C1_expected_operand_iff_witness :
    specOperandViolation [Token.Store] :=
  (C1_expected_operand_iff [Token.Store] (by decide)).mp (by rfl)

/-- C2: into_opcodes fails with ExceededMaxLength exactly when the
token count exceeds 128 (so a 128-token program is not rejected for
length, and when the count exceeds 128 the error is ExceededMaxLength
even if an operand violation also exists); and these two kinds are the
only possible errors. -/
theorem C2_max_length_iff (ts : List Token) :
    ((Program.mk ts).into_opcodes = .error .ExceededMaxLength ↔
      ts.length > MAX_PROGRAM_LENGTH) ∧
    (∀ e, (Program.mk ts).into_opcodes = .error e →
      e = .ExpectedOperand ∨ e = .ExceededMaxLength) := by
  constructor
  · constructor
    · intro h
      by_contra hlen
      rw [into_opcodes_eq ts hlen, except_map_eq_error_iff] at h
      exact encodeLoop_ne_maxlen ts false [] h
    · intro h
      unfold Program.into_opcodes
      rw [if_pos h]
  · intro e _
    cases e
    · exact Or.inl rfl
    · exact Or.inr rfl

/-- Witness for C2 at a 129-token program. -/
theorem C2_max_length_iff_witness :
    (Program.mk (List.replicate 129 Token.NoOp)).into_opcodes =
      .error .ExceededMaxLength :=
  (C2_max_length_iff (List.replicate 129 Token.NoOp)).1.mpr (by decide)

/-- C3: on success the output is the concatenation, in token order with
no separators, of the character the spec's fixed table assigns to each
mnemonic or Operand token (Operand v contributing the uppercase hex
digit of v), for sequences whose operand values are four-bit as the
lexer guarantees. -/
theorem C3_output_representation (ts : List Token) (s : String)
    (hv : ∀ v, Token.Operand v ∈ ts → v < 16)
    (h : (Program.mk ts).into_opcodes = .ok s) :
    s.data = ts.filterMap specTokenChar := by
  obtain ⟨hd, -⟩ := into_opcodes_ok_data ts s h
  rw [hd]
  refine List.filterMap_congr ?_
  intro t ht
  refine repr_eq_specTokenChar t ?_
  intro v hv'
  exact hv v (hv' ▸ ht)

/-- Witness for C3 at a concrete four-token program. -/
theorem C3_output_representation_witness :
    ("B08F" : String).data =
      [Token.OutputEnable, Token.Operand 0, Token.Store,
        Token.Operand 15].filterMap specTokenChar :=
  C3_output_representation
    [Token.OutputEnable, Token.Operand 0, Token.Store, Token.Operand 15]
    "B08F"
    (by
      intro v h
      simp at h
      rcases h with h | h <;> omega)
    (by rfl)

/-- C4 counterexample: the source consisting of the single unrecognized
character bang lexes to an Error token that is handed to the encoder,
refuting the claim that such markers never appear in the sequence. -/
theorem C4_counterexample :
    Token.Error ∈ (Program.from_assembly "!").tokens ∧
    isMnemonic Token.Error = false ∧ isOperand Token.Error = false := by
  decide

/-- C4 amended: every token handed to the encoder is either a mnemonic
variant, an Operand, or an Error token from an unrecognized character;
Comment tokens (and whitespace) are discarded and never appear, but
Error tokens do appear. -/
theorem C4_amended_token_shape (s : String) :
    (∀ t ∈ (Program.from_assembly s).tokens,
      isMnemonic t = true ∨ isOperand t = true ∨ t = Token.Error) ∧
    Token.Comment ∉ (Program.from_assembly s).tokens := by
  constructor
  · intro t ht
    rcases lexList_token_shape s.data t ht with h | ⟨v, hv, -⟩ | h
    · exact Or.inl h
    · refine Or.inr (Or.inl ?_)
      rw [hv]
      rfl
    · exact Or.inr (Or.inr h)
  · exact lexList_no_comment s.data

/-- Witness for the amended C4 on a source mixing a mnemonic with an
unrecognized character. -/
theorem C4_amended_token_shape_witness :
    isMnemonic Token.Load = true ∨ isOperand Token.Load = true ∨
      Token.Load = Token.Error :=
  (C4_amended_token_shape "LD!").1 Token.Load (by decide)

/-- C5 counterexample: the source consisting of one unrecognized
character lexes to one token (an Error token, neither whitespace nor a
comment) yet encodes successfully to the empty string of length zero,
refuting the claimed equality. -/
theorem C5_counterexample :
    (Program.from_assembly "!").tokens = [Token.Error] ∧
    (Program.from_assembly "!").into_opcodes = .ok "" ∧
    ("" : String).length = 0 ∧ Token.Error ≠ Token.Comment :=
  ⟨by decide, by rfl, rfl, by decide⟩

/-- C5 amended: on success the output length equals the number of
mnemonic and Operand tokens the lexer produced (equivalently, the
non-comment, non-whitespace, non-error tokens). -/
theorem C5_amended_length (s : String) (out : String)
    (h : (Program.from_assembly s).into_opcodes = .ok out) :
    out.length =
      ((Program.from_assembly s).tokens.filter isMnemonicOrOperand).length := by
  obtain ⟨hd, -⟩ := into_opcodes_ok_data (Program.from_assembly s).tokens out h
  show out.data.length = _
  rw [hd]
  exact length_repr_filterMap _

/-- Witness for the amended C5 at the first spec scenario. -/
theorem C5_amended_length_witness :
    ("B080" : String).length =
      ((Program.from_assembly "OEN 0 \nSTO 0").tokens.filter
        isMnemonicOrOperand).length :=
  C5_amended_length "OEN 0 \nSTO 0" "B080" (by rfl)

/-- C6: mnemonic matching is greedy among overlapping literals: STOC,
ORC, ANDC and LDC each lex as the single complement token, never as the
prefix mnemonic followed by a fragment. -/
theorem C6_greedy_matching :
    (Program.from_assembly "STOC").tokens = [Token.StoreComplement] ∧
    (Program.from_assembly "ORC").tokens = [Token.OrComplement] ∧
    (Program.from_assembly "ANDC").tokens = [Token.AndComplement] ∧
    (Program.from_assembly "LDC").tokens = [Token.LoadComplement] := by
  decide

/-- C7: a semicolon comment contributes no token (lexing a comment
followed by its terminating newline equals lexing from the newline),
and the concrete commented program of the spec encodes to B080, so a
comment between a mnemonic and its operand does not cause
ExpectedOperand. -/
theorem C7_comment_transparency :
    (∀ c rest : List Char, '\n' ∉ c →
      lexList (';' :: (c ++ '\n' :: rest)) = lexList ('\n' :: rest)) ∧
    (Program.from_assembly
      "OEN 0 ;comment text\nSTO 0 ;comment text").into_opcodes =
      .ok "B080" :=
  ⟨fun c rest h => lexList_comment_skip c rest h, by rfl⟩

/-- Witness for C7 at a one-character comment body. -/
theorem C7_comment_transparency_witness :
    lexList (';' :: (['x'] ++ '\n' :: ['L', 'D'])) =
      lexList ('\n' :: ['L', 'D']) :=
  C7_comment_transparency.1 ['x'] ['L', 'D'] (by decide)

/-- C8: an unrecognized non-whitespace character produces an Error
token kept in the Program's sequence; Error tokens count toward the
128-token ceiling, contribute no output character, do not set the
operand requirement, and trigger ExpectedOperand right after an
operand-requiring mnemonic. -/
theorem C8_error_tokens :
    (∀ c : Char, ¬ c = ';' → isWs c = false → isHexChar c = false →
      (Program.from_assembly (String.mk [c])).tokens = [Token.Error]) ∧
    (Program.mk (List.replicate 129 Token.Error)).into_opcodes =
      .error .ExceededMaxLength ∧
    get_token_representation Token.Error = none ∧
    does_token_require_operand Token.Error = false ∧
    (∀ t ts, does_token_require_operand t = true →
      (t :: Token.Error :: ts).length ≤ MAX_PROGRAM_LENGTH →
      (Program.mk (t :: Token.Error :: ts)).into_opcodes =
        .error .ExpectedOperand) := by
  refine ⟨?_, by rfl, rfl, rfl, ?_⟩
  · intro c hs hw hx
    show lexList [c] = [Token.Error]
    exact lexList_single_error c hs hw hx
  · intro t ts hreq hlen
    rw [into_opcodes_eq _ (Nat.not_lt.mpr hlen)]
    have hloop : encodeLoop (t :: Token.Error :: ts) false [] =
        .error .ExpectedOperand := by
      rw [encodeLoop_err_iff]
      simp [errCond, hreq, isOperand]
    rw [hloop]
    rfl

/-- Witness for C8 on the bang character and a Load-then-Error program. -/
theorem C8_error_tokens_witness :
    (Program.from_assembly (String.mk ['!'])).tokens = [Token.Error] ∧
    (Program.mk [Token.Load, Token.Error]).into_opcodes =
      .error .ExpectedOperand :=
  ⟨C8_error_tokens.1 '!' (by decide) (by decide) (by decide),
   C8_error_tokens.2.2.2.2 Token.Load [] (by decide) (by decide)⟩

/-- C9: every character of a successful output is an uppercase hex
digit, and the output length is at most 128. -/
theorem C9_output_hex_bounded (ts : List Token) (s : String)
    (h : (Program.mk ts).into_opcodes = .ok s) :
    (∀ c ∈ s.data, isUpperHexDigit c = true) ∧ s.length ≤ 128 := by
  obtain ⟨hd, hlen⟩ := into_opcodes_ok_data ts s h
  constructor
  · intro c hc
    rw [hd] at hc
    obtain ⟨t, _, hr⟩ := List.mem_filterMap.mp hc
    exact repr_char_hex t c hr
  · show s.data.length ≤ 128
    rw [hd]
    calc (ts.filterMap get_token_representation).length
        ≤ ts.length := List.length_filterMap_le _ _
      _ ≤ 128 := Nat.not_lt.mp hlen

/-- Witness for C9 at a concrete successful program. -/
theorem C9_output_hex_bounded_witness :
    (∀ c ∈ ("B080" : String).data, isUpperHexDigit c = true) ∧
      ("B080" : String).length ≤ 128 :=
  C9_output_hex_bounded (Program.from_assembly "OEN 0 \nSTO 0").tokens
    "B080" (by rfl)

/-- C10: every Operand the lexer constructs carries a value below 16,
and for such values the uppercase hex formatting is exactly one
character, so the character extraction never fails. -/
theorem C10_operand_values (s : String) :
    (∀ v, Token.Operand v ∈ (Program.from_assembly s).tokens → v < 16) ∧
    (∀ v, v < 16 → (toHexUpper v).length = 1 ∧
      (get_token_representation (Token.Operand v)).isSome = true) := by
  constructor
  · intro v hv
    exact lexList_operand_lt s.data v hv
  · intro v hv
    constructor
    · rw [toHexUpper_lt v hv]
      rfl
    · exact repr_operand_isSome v

/-- Witness for C10 at a lexed operand and the value ten. -/
theorem C10_operand_values_witness :
    (3 : Nat) < 16 ∧ (toHexUpper 10).length = 1 ∧
      (get_token_representation (Token.Operand 10)).isSome = true :=
  ⟨(C10_operand_values "LD 3").1 3 (by decide),
   (C10_operand_values "").2 10 (by decide)⟩

end GoonAsm
